import Mathlib

/-!
Shallow embedding of the portknocker server (`main.go`, the session-based
server: globals `allowedPeers` / `knockSessions` / `validKnockSequence`, the
peer manager goroutine, the base server handler, the knock server handlers,
and the knock-sequence parser), together with theorems settling the spec
claims about it.

Modelling conventions:
* `net.IP` is modelled as `Option Nat`: `none` is Go's nil `IP` (what
  `net.ParseIP` returns on failure), `some n` an abstract concrete address.
  `net.IP.Equal` is equality of these values (two nil IPs are `Equal` in Go,
  matching `none = none`).
* `time.Time` is `Nat`; `time.Now().After(t)` is `now > t`, `Add` is `+`.
* Go slices of pointers with in-place mutation are modelled by pure lists
  with explicit first-match update (`appendKnockToSession`).
* Each HTTP handler is a pure function from the pre-state and request data to
  the post-state and response; the spec's concurrency discipline serialises
  handler executions, so a run of the server is a fold of handler steps.
-/

namespace PortKnocker

/-- Go `int` port numbers (`strconv.Atoi` can produce negative values). -/
abbrev Port := Int

/-- `time.Time`, abstracted to a natural-number timestamp. -/
abbrev Time := Nat

/-- Model of `net.IP`: `none` is Go's nil IP, `some n` a parsed address. -/
abbrev IP := Option Nat

/-- Go struct `knockSession { ip net.IP; knocks []int }`. -/
structure KnockSession where
  ip : IP
  knocks : List Port
deriving DecidableEq

/-- Go struct `allowedPeer { ip net.IP; start, end time.Time }`. -/
structure AllowedPeer where
  ip : IP
  start : Time
  «end» : Time
deriving DecidableEq

/-- The server's mutable globals `allowedPeers` and `knockSessions`
(`validKnockSequence` is set once at startup and passed as a parameter). -/
structure ServerState where
  allowedPeers : List AllowedPeer
  knockSessions : List KnockSession
deriving DecidableEq

/-- Go func `isPeerAllowed(peer net.IP) bool`: linear scan of `allowedPeers`,
true on the first entry whose `ip` equals `peer`. No expiry check. -/
def isPeerAllowed (allowed : List AllowedPeer) (peer : IP) : Bool :=
  allowed.any fun a => decide (a.ip = peer)

/-- Go func `allowPeer(peer net.IP)`: no-op when `isPeerAllowed`, otherwise
appends `{ip: peer, start: time.Now(), end: time.Now().Add(*accessDuration)}`. -/
def allowPeer (now : Time) (dur : Nat) (allowed : List AllowedPeer) (peer : IP) :
    List AllowedPeer :=
  if isPeerAllowed allowed peer then allowed
  else allowed ++ [{ ip := peer, start := now, «end» := now + dur }]

/-- Go func `peerHasKnockSession(peer net.IP) (bool, *knockSession)`: first
session whose `ip` equals `peer`, `none` when there is none. -/
def peerHasKnockSession (peer : IP) : List KnockSession → Option KnockSession
  | [] => none
  | s :: rest => if s.ip = peer then some s else peerHasKnockSession peer rest

/-- The in-place `s.knocks = append(s.knocks, port)` on the pointer returned
by `peerHasKnockSession`: updates the first session whose `ip` equals `peer`. -/
def appendKnockToSession (peer : IP) (port : Port) :
    List KnockSession → List KnockSession
  | [] => []
  | s :: rest =>
    if s.ip = peer then { s with knocks := s.knocks ++ [port] } :: rest
    else s :: appendKnockToSession peer port rest

/-- The positional loop of `knockSessionIsComplete`:
`for i, port := range session.knocks { if port != validKnockSequence[i] ... }`.
Only invoked on lists of equal length (guarded by the length check). -/
def knocksMatch : List Port → List Port → Bool
  | [], _ => true
  | _ :: _, [] => false
  | p :: ps, q :: qs => p = q && knocksMatch ps qs

/-- Go func `knockSessionIsComplete(session *knockSession) bool`: false when the
lengths differ, otherwise a positional comparison with `validKnockSequence`. -/
def knockSessionIsComplete (cfg : List Port) (s : KnockSession) : Bool :=
  if s.knocks.length ≠ cfg.length then false
  else knocksMatch s.knocks cfg

/-- One pass of the peer-manager ticker body (the Expiry Sweeper), at a fixed
observation time `now`: the index loop removes `allowedPeers[i]` exactly when
`time.Now().After(allowedPeers[i].end)`, i.e. when `end < now`, preserving
order of the rest. (The Go loop re-reads the clock per element; a single pass
is modelled at one instant.) -/
def prune (now : Time) : List AllowedPeer → List AllowedPeer
  | [] => []
  | a :: rest => if a.«end» < now then prune now rest else a :: prune now rest

/-- The distinct HTTP responses the two handlers can produce. -/
inductive Response
  /-- Status 200, body `"Access granted!"`. -/
  | granted
  /-- Status 200, body `"You are already allowed access!"`. -/
  | alreadyAllowed
  /-- Status 200, body `"Knock, knock!"`. -/
  | knockAck
  /-- Status 403, body `"Access denied!"`. -/
  | denied
  /-- Status 500, body `"Error getting peer"`. -/
  | peerError
deriving DecidableEq

/-- HTTP status code of each response. -/
def Response.status : Response → Nat
  | granted => 200
  | alreadyAllowed => 200
  | knockAck => 200
  | denied => 403
  | peerError => 500

/-- An inbound request, reduced to the only datum the handlers consult:
`r.RemoteAddr` after `net.SplitHostPort`. `badAddr` is a remote address on
which `net.SplitHostPort` returns an error (no `host:port` shape); `addr h`
carries the host portion when the split succeeds. -/
inductive Request
  | badAddr
  | addr (host : List Char)
deriving DecidableEq

/-- Splits a character list at every occurrence of `sep`; models Go
`strings.Split` (so the empty input yields one empty field). -/
def splitOnSep (sep : Char) : List Char → List (List Char)
  | [] => [[]]
  | c :: rest =>
    match splitOnSep sep rest, decide (c = sep) with
    | r, true => [] :: r
    | [], false => [[c]]
    | h :: t, false => (c :: h) :: t

/-- One dotted-quad field for `parseIP`: 1–3 decimal digits, no leading zero
(except `"0"` itself), value at most 255. -/
def parseIPv4Field (cs : List Char) : Option Nat :=
  match cs with
  | [] => none
  | c₀ :: rest =>
    if ¬ (c₀ :: rest).all Char.isDigit then none
    else if (c₀ :: rest).length > 3 then none
    else if c₀ = '0' ∧ rest ≠ [] then none
    else
      let v := (c₀ :: rest).foldl (fun a c => a * 10 + (c.toNat - 48)) 0
      if v ≤ 255 then some v else none

/-- Model of `net.ParseIP`, restricted to IPv4 dotted-quad literals (the only address
family the claims exercise); any other input — including IPv6 literals, which
are outside the scope of this development — yields `none`, Go's nil IP. -/
def parseIP (cs : List Char) : IP :=
  match splitOnSep '.' cs with
  | [a, b, c, d] =>
    match parseIPv4Field a, parseIPv4Field b, parseIPv4Field c, parseIPv4Field d with
    | some va, some vb, some vc, some vd => some (((va * 256 + vb) * 256 + vc) * 256 + vd)
    | _, _, _, _ => none
  | _ => none

/-- Go func `getPeer(r *http.Request) (net.IP, error)`: an error exactly when
`net.SplitHostPort(r.RemoteAddr)` fails; otherwise `net.ParseIP(host)` with a
nil error — note the parse result may itself be the nil IP (`none`). -/
def getPeer : Request → Except Unit IP
  | .badAddr => .error ()
  | .addr host => .ok (parseIP host)

/-- The base (gated) server handler of `startBaseServer`, after peer
extraction: 200 `granted` when `isPeerAllowed`, else 403 `denied`. It never
mutates server state. -/
def baseHandlerCore (st : ServerState) (peer : IP) : Response :=
  if isPeerAllowed st.allowedPeers peer then .granted else .denied

/-- The full base-server handler: 500 on `getPeer` error, else
`baseHandlerCore`. -/
def baseHandler (st : ServerState) (r : Request) : Response :=
  match getPeer r with
  | .error _ => .peerError
  | .ok peer => baseHandlerCore st peer

/-- The knock-server handler of `startKnockServers` for listener port `port`,
after peer extraction: short-circuit for already-allowed peers; create a
session seeded `[port]` (and return, with no completion check) when the peer
has none; otherwise append `port` to the existing session and, when the
session now equals the full sequence, `allowPeer` and answer `granted`. -/
def knockHandlerCore (cfg : List Port) (now : Time) (dur : Nat)
    (st : ServerState) (peer : IP) (port : Port) : ServerState × Response :=
  if isPeerAllowed st.allowedPeers peer then
    (st, .alreadyAllowed)
  else
    match peerHasKnockSession peer st.knockSessions with
    | none =>
      ({ st with knockSessions := st.knockSessions ++ [{ ip := peer, knocks := [port] }] },
        .knockAck)
    | some s =>
      let sessions := appendKnockToSession peer port st.knockSessions
      if knockSessionIsComplete cfg { s with knocks := s.knocks ++ [port] } then
        ({ allowedPeers := allowPeer now dur st.allowedPeers peer,
           knockSessions := sessions }, .granted)
      else
        ({ st with knockSessions := sessions }, .knockAck)

/-- The full knock-server handler: 500 and no state change on `getPeer`
error, else `knockHandlerCore`. -/
def knockHandler (cfg : List Port) (now : Time) (dur : Nat)
    (st : ServerState) (r : Request) (port : Port) : ServerState × Response :=
  match getPeer r with
  | .error _ => (st, .peerError)
  | .ok peer => knockHandlerCore cfg now dur st peer port

/-- Folds a series of knocks by one peer through the knock handler. The
handlers never read the clock (`now` only stamps the entry created at the
single granting knock), so one observation time serves the whole run. -/
def runKnocks (cfg : List Port) (now : Time) (dur : Nat)
    (st : ServerState) (peer : IP) (l : List Port) : ServerState :=
  l.foldl (fun s q => (knockHandlerCore cfg now dur s peer q).1) st

/-- Model of `strconv.Atoi`: optional sign, at least one digit, all digits, result
within the 64-bit `int` range — `none` models a non-nil error. -/
def atoi (cs : List Char) : Option Int :=
  let (sign, ds) : Int × List Char :=
    match cs with
    | '+' :: rest => (1, rest)
    | '-' :: rest => (-1, rest)
    | _ => (1, cs)
  if ds = [] then none
  else if ¬ ds.all Char.isDigit then none
  else
    let v : Int := sign * (ds.foldl (fun a c => a * 10 + (c.toNat - 48)) 0 : Nat)
    if -(2 ^ 63) ≤ v ∧ v < 2 ^ 63 then some v else none

/-- The field loop of `parseKnockSequence`: `strconv.Atoi` on each field,
failing as a whole when any field fails. -/
def parseFields : List (List Char) → Option (List Port)
  | [] => some []
  | f :: rest =>
    match atoi f with
    | none => none
    | some p =>
      match parseFields rest with
      | none => none
      | some ps => some (p :: ps)

/-- Go func `parseKnockSequence()`: splits the `knockSequence` flag on `","` and
`strconv.Atoi`s each field; `none` models the `log.Fatalf` exit on an
invalid field (the process never begins listening), `some seq` the
successfully installed `validKnockSequence`. -/
def parseKnockSequence (flagValue : List Char) : Option (List Port) :=
  parseFields (splitOnSep ',' flagValue)

/-- Folds a series of knock events `(peer, listener port)` — possibly from
many interleaved peers — through the knock handler, under the serialisation
discipline of the spec. -/
def runEvents (cfg : List Port) (now : Time) (dur : Nat)
    (st : ServerState) (l : List (IP × Port)) : ServerState :=
  l.foldl (fun s e => (knockHandlerCore cfg now dur s e.1 e.2).1) st

/-- Proof-side projection of the server state onto one peer: that peer's
recorded knocks (if it has a session) and its allowlist status. -/
structure PeerView where
  session : Option (List Port)
  allowed : Bool
deriving DecidableEq

/-- The projection of `ServerState` onto peer `p`. -/
def peerView (st : ServerState) (p : IP) : PeerView :=
  { session := (peerHasKnockSession p st.knockSessions).map KnockSession.knocks,
    allowed := isPeerAllowed st.allowedPeers p }

/-- Proof-side single-peer transition: the effect of one knock on the knocking
peer's own view (established below to be exactly what `knockHandlerCore`
does to `peerView`). -/
def viewStep (cfg : List Port) (v : PeerView) (q : Port) : PeerView :=
  if v.allowed then v
  else
    match v.session with
    | none => { session := some [q], allowed := false }
    | some ks => { session := some (ks ++ [q]), allowed := decide (ks ++ [q] = cfg) }

/-- Iterated `viewStep`. -/
def viewRun (cfg : List Port) (v : PeerView) (l : List Port) : PeerView :=
  l.foldl (viewStep cfg) v

/-- The fresh view: no session, not allowed. -/
def freshView : PeerView := { session := none, allowed := false }

/-- Characterisation of when a knock history grants: the configured sequence
has length at least 2 (the first knock is consumed by session creation with
no completion check) and the first `cfg.length` knocks are exactly `cfg`. -/
def grantingHistory (cfg l : List Port) : Prop :=
  2 ≤ cfg.length ∧ cfg.length ≤ l.length ∧ l.take cfg.length = cfg

instance (cfg l : List Port) : Decidable (grantingHistory cfg l) := by
  unfold grantingHistory; infer_instance

/-! ### Helper lemmas about the allowlist -/

/-- Membership reading of the `isPeerAllowed` scan. -/
theorem isPeerAllowed_iff (al : List AllowedPeer) (p : IP) :
    isPeerAllowed al p = true ↔ ∃ e ∈ al, e.ip = p := by
  simp [isPeerAllowed]

/-- After `allowPeer` for `p`, the peer `p` is allowed. -/
theorem isPeerAllowed_allowPeer_self (now : Time) (dur : Nat)
    (al : List AllowedPeer) (p : IP) :
    isPeerAllowed (allowPeer now dur al p) p = true := by
  unfold allowPeer
  by_cases h : isPeerAllowed al p = true
  · simp [h]
  · simp only [h]
    simp [isPeerAllowed]

/-- For `b ≠ a`, `allowPeer` for `a` does not change whether `b` is allowed. -/
theorem isPeerAllowed_allowPeer_of_ne (now : Time) (dur : Nat)
    (al : List AllowedPeer) (a b : IP) (hne : b ≠ a) :
    isPeerAllowed (allowPeer now dur al a) b = isPeerAllowed al b := by
  unfold allowPeer
  by_cases h : isPeerAllowed al a = true
  · simp [h]
  · simp only [h]
    simp [isPeerAllowed, Ne.symm hne]

/-! ### Helper lemmas about the session table -/

/-- The completion loop on equal-length lists is list equality. -/
theorem knocksMatch_iff (l₁ l₂ : List Port) (hlen : l₁.length = l₂.length) :
    knocksMatch l₁ l₂ = true ↔ l₁ = l₂ := by
  induction l₁ generalizing l₂ with
  | nil =>
    cases l₂ with
    | nil => simp [knocksMatch]
    | cons q qs => simp at hlen
  | cons p ps ih =>
    cases l₂ with
    | nil => simp at hlen
    | cons q qs =>
      simp only [knocksMatch, Bool.and_eq_true, decide_eq_true_eq, List.cons.injEq]
      simp only [List.length_cons, Nat.add_right_cancel_iff] at hlen
      rw [ih qs hlen]

/-- A session is complete exactly when its knocks equal the configured
sequence. -/
theorem knockSessionIsComplete_iff (cfg : List Port) (s : KnockSession) :
    knockSessionIsComplete cfg s = true ↔ s.knocks = cfg := by
  unfold knockSessionIsComplete
  by_cases hlen : s.knocks.length = cfg.length
  · simp only [hlen, ne_eq, not_true_eq_false, if_false, ite_false]
    rw [knocksMatch_iff s.knocks cfg hlen]
  · simp only [ne_eq, hlen, not_false_eq_true, if_true, ite_true]
    constructor
    · intro h; exact absurd h (by simp)
    · intro h; exact absurd (congrArg List.length h) hlen

/-- Appending a session for `p` to a table without one makes it the one
found. -/
theorem peerHasKnockSession_append_self (p : IP) (ss : List KnockSession)
    (s : KnockSession) (hip : s.ip = p)
    (h : peerHasKnockSession p ss = none) :
    peerHasKnockSession p (ss ++ [s]) = some s := by
  induction ss with
  | nil => simp [peerHasKnockSession, hip]
  | cons t ts ih =>
    simp only [List.cons_append, peerHasKnockSession] at h ⊢
    by_cases ht : t.ip = p
    · rw [if_pos ht] at h; exact absurd h (by simp)
    · rw [if_neg ht] at h ⊢
      exact ih h

/-- Updating the session of `p` updates exactly the session found for `p`. -/
theorem peerHasKnockSession_appendKnock_self (p : IP) (q : Port)
    (ss : List KnockSession) (s : KnockSession)
    (h : peerHasKnockSession p ss = some s) :
    peerHasKnockSession p (appendKnockToSession p q ss) =
      some { s with knocks := s.knocks ++ [q] } := by
  induction ss with
  | nil => simp [peerHasKnockSession] at h
  | cons t ts ih =>
    simp only [peerHasKnockSession, appendKnockToSession] at h ⊢
    by_cases ht : t.ip = p
    · rw [if_pos ht] at h
      rw [if_pos ht]
      simp only [Option.some.injEq] at h
      subst h
      simp [peerHasKnockSession, ht]
    · rw [if_neg ht] at h
      rw [if_neg ht]
      simp only [peerHasKnockSession]
      rw [if_neg ht]
      exact ih h

/-- A knock by `a` leaves the session lookup of any other peer `b`
unchanged. -/
theorem peerHasKnockSession_appendKnock_of_ne (a b : IP) (q : Port)
    (ss : List KnockSession) (hne : b ≠ a) :
    peerHasKnockSession b (appendKnockToSession a q ss) =
      peerHasKnockSession b ss := by
  induction ss with
  | nil => rfl
  | cons t ts ih =>
    simp only [appendKnockToSession]
    by_cases ha : t.ip = a
    · have hb : ¬ t.ip = b := by rw [ha]; exact fun h => hne h.symm
      rw [if_pos ha]
      simp only [peerHasKnockSession]
      rw [if_neg hb, if_neg hb]
    · rw [if_neg ha]
      simp only [peerHasKnockSession]
      by_cases hb : t.ip = b
      · rw [if_pos hb, if_pos hb]
      · rw [if_neg hb, if_neg hb]
        exact ih

/-- A session appended for `a` is invisible to the lookup of `b ≠ a`. -/
theorem peerHasKnockSession_append_of_ne (a b : IP) (ss : List KnockSession)
    (s : KnockSession) (hip : s.ip = a) (hne : b ≠ a) :
    peerHasKnockSession b (ss ++ [s]) = peerHasKnockSession b ss := by
  induction ss with
  | nil =>
    have hs : ¬ s.ip = b := by rw [hip]; exact fun h => hne h.symm
    simp [peerHasKnockSession, hs]
  | cons t ts ih =>
    simp only [List.cons_append, peerHasKnockSession]
    by_cases hb : t.ip = b
    · rw [if_pos hb, if_pos hb]
    · rw [if_neg hb, if_neg hb]
      exact ih

/-! ### Simulation: the knock handler acting on one peer's view -/

/-- A peer with no session and no allowlist entry has the fresh view. -/
theorem peerView_eq_freshView (st : ServerState) (p : IP)
    (hs : peerHasKnockSession p st.knockSessions = none)
    (ha : isPeerAllowed st.allowedPeers p = false) :
    peerView st p = freshView := by
  unfold peerView freshView
  rw [hs, ha]
  rfl

/-- One knock by `p` acts on `p`'s own view exactly as `viewStep`. -/
theorem peerView_knockHandlerCore (cfg : List Port) (now : Time) (dur : Nat)
    (st : ServerState) (p : IP) (q : Port) :
    peerView (knockHandlerCore cfg now dur st p q).1 p =
      viewStep cfg (peerView st p) q := by
  unfold knockHandlerCore
  by_cases hall : isPeerAllowed st.allowedPeers p = true
  · rw [if_pos hall]
    unfold viewStep
    have hv : (peerView st p).allowed = true := hall
    rw [if_pos hv]
  · have hf : isPeerAllowed st.allowedPeers p = false := by
      revert hall; cases isPeerAllowed st.allowedPeers p <;> simp
    rw [if_neg hall]
    cases hsess : peerHasKnockSession p st.knockSessions with
    | none =>
      simp only [hsess]
      unfold peerView viewStep
      simp only [hsess, Option.map_none, hf]
      rw [if_neg (by simp)]
      rw [peerHasKnockSession_append_self p st.knockSessions ⟨p, [q]⟩ rfl hsess]
      rfl
    | some s =>
      simp only [hsess]
      have hlook := peerHasKnockSession_appendKnock_self p q st.knockSessions s hsess
      by_cases hc : knockSessionIsComplete cfg { s with knocks := s.knocks ++ [q] } = true
      · have heq : s.knocks ++ [q] = cfg :=
          (knockSessionIsComplete_iff cfg _).mp hc
        rw [if_pos hc]
        unfold peerView viewStep
        simp only [hsess, Option.map_some, hf]
        rw [if_neg (by simp)]
        simp only [hlook, Option.map_some]
        simp [heq]
        exact isPeerAllowed_allowPeer_self now dur st.allowedPeers p
      · have hne : ¬ s.knocks ++ [q] = cfg := fun h =>
          hc ((knockSessionIsComplete_iff cfg _).mpr h)
        rw [if_neg hc]
        unfold peerView viewStep
        simp only [hsess, Option.map_some, hf]
        rw [if_neg (by simp)]
        simp only [hlook, Option.map_some]
        simp [hne, hf]

/-- A knock by `a` leaves the view of any other peer `b` unchanged. -/
theorem peerView_knockHandlerCore_of_ne (cfg : List Port) (now : Time)
    (dur : Nat) (st : ServerState) (a b : IP) (q : Port) (hne : b ≠ a) :
    peerView (knockHandlerCore cfg now dur st a q).1 b = peerView st b := by
  unfold knockHandlerCore
  by_cases hall : isPeerAllowed st.allowedPeers a = true
  · rw [if_pos hall]
  · rw [if_neg hall]
    cases hsess : peerHasKnockSession a st.knockSessions with
    | none =>
      simp only [hsess]
      unfold peerView
      rw [peerHasKnockSession_append_of_ne a b st.knockSessions ⟨a, [q]⟩ rfl hne]
    | some s =>
      simp only [hsess]
      by_cases hc : knockSessionIsComplete cfg { s with knocks := s.knocks ++ [q] } = true
      · rw [if_pos hc]
        unfold peerView
        simp only
        rw [peerHasKnockSession_appendKnock_of_ne a b q st.knockSessions hne,
          isPeerAllowed_allowPeer_of_ne now dur st.allowedPeers a b hne]
      · rw [if_neg hc]
        unfold peerView
        simp only
        rw [peerHasKnockSession_appendKnock_of_ne a b q st.knockSessions hne]

/-- A run of knocks by `p` acts on `p`'s view as the iterated `viewStep`. -/
theorem peerView_runKnocks (cfg : List Port) (now : Time) (dur : Nat)
    (st : ServerState) (p : IP) (l : List Port) :
    peerView (runKnocks cfg now dur st p l) p =
      viewRun cfg (peerView st p) l := by
  induction l generalizing st with
  | nil => rfl
  | cons q rest ih =>
    unfold runKnocks viewRun at *
    simp only [List.foldl_cons]
    rw [ih, peerView_knockHandlerCore]

/-- **C4** (confirmed). Knocks observed for other peers change neither `b`'s
knock session (existence or recorded knocks) nor `b`'s allowlist status: the
view of `b` after an arbitrarily interleaved run of knock events equals the
view produced by `b`'s own knocks alone, exactly as if the other peers'
knocks had not occurred. -/
theorem c4_other_peer_knocks_invisible (cfg : List Port) (now : Time) (dur : Nat)
    (st : ServerState) (l : List (IP × Port)) (b : IP) :
    peerView (runEvents cfg now dur st l) b =
      viewRun cfg (peerView st b)
        ((l.filter fun e => decide (e.1 = b)).map Prod.snd) := by
  induction l generalizing st with
  | nil => rfl
  | cons e rest ih =>
    unfold runEvents viewRun at *
    simp only [List.foldl_cons]
    by_cases he : e.1 = b
    · subst he
      simp only [List.filter_cons]
      rw [if_pos (by simp), List.map_cons, List.foldl_cons]
      rw [ih, peerView_knockHandlerCore]
    · simp only [List.filter_cons]
      rw [if_neg (by simp [he])]
      rw [ih, peerView_knockHandlerCore_of_ne cfg now dur st e.1 b e.2
        (fun h => he h.symm)]

/-! ### Characterisation of a fresh peer's knock history -/

/-- Full characterisation of a fresh peer's view after any knock history:
the session records exactly the knocks made so far (frozen at `cfg` once the
grant fires), and access is granted exactly for a `grantingHistory`. -/
theorem viewRun_freshView (cfg l : List Port) :
    viewRun cfg freshView l =
      if l = [] then freshView
      else if grantingHistory cfg l then { session := some cfg, allowed := true }
      else { session := some l, allowed := false } := by
  induction l using List.reverseRecOn with
  | nil => rfl
  | append_singleton p q ih =>
    have hstep : viewRun cfg freshView (p ++ [q]) =
        viewStep cfg (viewRun cfg freshView p) q := by
      unfold viewRun
      rw [List.foldl_append, List.foldl_cons, List.foldl_nil]
    have hne : ¬ p ++ [q] = [] := by simp
    rw [hstep, ih, if_neg hne]
    by_cases hp : p = []
    · have hng : ¬ grantingHistory cfg (p ++ [q]) := by
        rintro ⟨h2, hle, _⟩
        rw [List.length_append, List.length_singleton, hp] at hle
        simp only [List.length_nil, Nat.zero_add] at hle
        omega
      rw [if_pos hp, if_neg hng, hp]
      rfl
    · rw [if_neg hp]
      by_cases hg : grantingHistory cfg p
      · have hg' : grantingHistory cfg (p ++ [q]) := by
          obtain ⟨h2, hle, htake⟩ := hg
          refine ⟨h2, ?_, ?_⟩
          · rw [List.length_append]; omega
          · rw [List.take_append_of_le_length hle]; exact htake
        rw [if_pos hg, if_pos hg']
        rfl
      · rw [if_neg hg]
        by_cases heq : p ++ [q] = cfg
        · have hg' : grantingHistory cfg (p ++ [q]) := by
            refine ⟨?_, ?_, ?_⟩
            · rw [← heq, List.length_append, List.length_singleton]
              have hpos : 0 < p.length := List.length_pos.mpr hp
              omega
            · rw [← heq]
            · rw [← heq]
              exact List.take_length _
          rw [if_pos hg']
          unfold viewStep
          simp [heq]
        · have hg' : ¬ grantingHistory cfg (p ++ [q]) := by
            rintro ⟨h2, hle, htake⟩
            rw [List.length_append, List.length_singleton] at hle
            rcases Nat.lt_or_ge p.length cfg.length with hlt | hge
            · have hcl : cfg.length = p.length + 1 := by omega
              rw [hcl] at htake
              have hall : (p ++ [q]).take (p.length + 1) = p ++ [q] := by
                apply List.take_of_length_le
                simp
              rw [hall] at htake
              exact heq htake
            · apply hg
              refine ⟨h2, hge, ?_⟩
              rw [List.take_append_of_le_length hge] at htake
              exact htake
          rw [if_neg hg']
          unfold viewStep
          simp [heq]

/-- A fresh peer's knock history grants access exactly when it is a
`grantingHistory`. -/
theorem viewRun_freshView_allowed (cfg l : List Port) :
    (viewRun cfg freshView l).allowed = true ↔ grantingHistory cfg l := by
  rw [viewRun_freshView]
  by_cases h0 : l = []
  · rw [if_pos h0]
    subst h0
    constructor
    · intro h; exact absurd h (by simp [freshView])
    · rintro ⟨h2, hle, _⟩
      simp only [List.length_nil, Nat.le_zero] at hle
      omega
  · rw [if_neg h0]
    by_cases hg : grantingHistory cfg l
    · rw [if_pos hg]
      simpa using hg
    · rw [if_neg hg]
      simpa using hg

/-! ### Further helper lemmas -/

/-- A Boolean that is not true is false. -/
theorem bool_eq_false (b : Bool) (h : ¬ b = true) : b = false := by
  cases b
  · rfl
  · exact absurd rfl h

/-- The sweeper pass keeps exactly the entries whose expiry has not strictly
passed, in order: it is a filter. -/
theorem prune_eq_filter (now : Time) (al : List AllowedPeer) :
    prune now al = al.filter fun e => decide (¬ e.«end» < now) := by
  induction al with
  | nil => rfl
  | cons a rest ih =>
    simp only [prune, List.filter_cons]
    by_cases h : a.«end» < now
    · rw [if_pos h, if_neg (by simp [h]), ih]
    · rw [if_neg h, if_pos (by simp [h]), ih]

/-- Membership in the pruned allowlist. -/
theorem mem_prune (now : Time) (al : List AllowedPeer) (e : AllowedPeer) :
    e ∈ prune now al ↔ e ∈ al ∧ ¬ e.«end» < now := by
  rw [prune_eq_filter]
  simp [List.mem_filter]

/-- The field loop fails exactly when some field is not an integer. -/
theorem parseFields_eq_none_iff (fields : List (List Char)) :
    parseFields fields = none ↔ ∃ f ∈ fields, atoi f = none := by
  induction fields with
  | nil => simp [parseFields]
  | cons f rest ih =>
    simp only [parseFields]
    cases hf : atoi f with
    | none =>
      constructor
      · intro _; exact ⟨f, List.mem_cons_self f rest, hf⟩
      · intro _; rfl
    | some p =>
      cases hr : parseFields rest with
      | none =>
        constructor
        · intro _
          obtain ⟨g, hg, hgn⟩ := ih.mp hr
          exact ⟨g, List.mem_cons_of_mem f hg, hgn⟩
        · intro _; rfl
      | some ps =>
        constructor
        · intro h; exact absurd h (by simp)
        · rintro ⟨g, hg, hgn⟩
          rcases List.mem_cons.mp hg with hgf | hgr
          · rw [hgf, hf] at hgn
            exact absurd hgn (by simp)
          · have hn : parseFields rest = none := ih.mpr ⟨g, hgr, hgn⟩
            rw [hr] at hn
            exact absurd hn (by simp)

/-- For a peer starting with no session and no allowlist entry, a run of its
own knocks grants access exactly for a `grantingHistory`. -/
theorem fresh_run_allowed_iff (cfg : List Port) (now : Time) (dur : Nat)
    (st : ServerState) (p : IP) (l : List Port)
    (hs : peerHasKnockSession p st.knockSessions = none)
    (ha : isPeerAllowed st.allowedPeers p = false) :
    isPeerAllowed (runKnocks cfg now dur st p l).allowedPeers p = true ↔
      grantingHistory cfg l := by
  have hrun := peerView_runKnocks cfg now dur st p l
  rw [peerView_eq_freshView st p hs ha] at hrun
  have hcast : isPeerAllowed (runKnocks cfg now dur st p l).allowedPeers p =
      (viewRun cfg freshView l).allowed := by
    rw [← hrun]; rfl
  rw [hcast, viewRun_freshView_allowed]

/-! ### Claim theorems -/

/-- **C1** counterexample: with the configured length-1 sequence `[8081]`, a
fresh peer that knocks exactly the configured ports in order is still not
granted after the final knock, and the gated port answers `denied` — refuting
the claim as stated for every configured knock sequence. -/
theorem c1_counterexample_length_one_sequence :
    isPeerAllowed (runKnocks [8081] 0 300 ⟨[], []⟩ (some 1)
      [8081]).allowedPeers (some 1) = false ∧
    baseHandlerCore (runKnocks [8081] 0 300 ⟨[], []⟩ (some 1) [8081])
      (some 1) = .denied := by
  decide

/-- **C1** (amended). For every peer `P` with no allowlist entry and no
pending knock session, and every configured knock sequence of length at
least 2: knocking exactly the configured ports strictly in order leaves `P`
not allowed after every proper prefix of the sequence, and after the final
knock `P` is allowed and the gated port answers `granted`. -/
theorem c1_inorder_knocks_grant (cfg : List Port) (now : Time) (dur : Nat)
    (st : ServerState) (p : IP)
    (hs : peerHasKnockSession p st.knockSessions = none)
    (ha : isPeerAllowed st.allowedPeers p = false)
    (hlen : 2 ≤ cfg.length) :
    (∀ k < cfg.length,
      isPeerAllowed (runKnocks cfg now dur st p (cfg.take k)).allowedPeers p
        = false) ∧
    isPeerAllowed (runKnocks cfg now dur st p cfg).allowedPeers p = true ∧
    baseHandlerCore (runKnocks cfg now dur st p cfg) p = .granted := by
  have hfull : isPeerAllowed (runKnocks cfg now dur st p cfg).allowedPeers p
      = true :=
    (fresh_run_allowed_iff cfg now dur st p cfg hs ha).mpr
      ⟨hlen, le_rfl, List.take_length cfg⟩
  refine ⟨?_, hfull, ?_⟩
  · intro k hk
    apply bool_eq_false
    intro htrue
    obtain ⟨h2, hle, _⟩ :=
      (fresh_run_allowed_iff cfg now dur st p _ hs ha).mp htrue
    rw [List.length_take] at hle
    omega
  · unfold baseHandlerCore
    rw [if_pos hfull]

/-- Witness for C1 at the default configuration `[8081, 8082, 8083]`. -/
theorem c1_inorder_knocks_grant_witness :
    isPeerAllowed (runKnocks [8081, 8082, 8083] 0 300 ⟨[], []⟩ (some 1)
      ([8081, 8082, 8083].take 2)).allowedPeers (some 1) = false ∧
    isPeerAllowed (runKnocks [8081, 8082, 8083] 0 300 ⟨[], []⟩ (some 1)
      [8081, 8082, 8083]).allowedPeers (some 1) = true :=
  ⟨(c1_inorder_knocks_grant [8081, 8082, 8083] 0 300 ⟨[], []⟩ (some 1)
      rfl rfl (by decide)).1 2 (by decide),
   (c1_inorder_knocks_grant [8081, 8082, 8083] 0 300 ⟨[], []⟩ (some 1)
      rfl rfl (by decide)).2.1⟩

/-- **C2** (confirmed). For a peer starting with no session and no allowlist
entry, any knock history whose first `cfg.length` knocks are not exactly the
configured sequence (out-of-order knocks, or a skipped port) never results in
a grant: at every point of the run the peer is still not allowed. -/
theorem c2_wrong_order_never_grants (cfg : List Port) (now : Time) (dur : Nat)
    (st : ServerState) (p : IP) (l : List Port)
    (hs : peerHasKnockSession p st.knockSessions = none)
    (ha : isPeerAllowed st.allowedPeers p = false)
    (hdiv : l.take cfg.length ≠ cfg) :
    ∀ k, isPeerAllowed (runKnocks cfg now dur st p (l.take k)).allowedPeers p
      = false := by
  intro k
  apply bool_eq_false
  intro htrue
  obtain ⟨h2, hle, ht⟩ :=
    (fresh_run_allowed_iff cfg now dur st p _ hs ha).mp htrue
  rw [List.length_take] at hle
  have hnk : cfg.length ≤ k := by omega
  rw [List.take_take, min_eq_left hnk] at ht
  exact hdiv ht

/-- Witness for C2: knocking `8082, 8081, 8083` against the configured
sequence `[8081, 8082, 8083]` never grants. -/
theorem c2_wrong_order_never_grants_witness :
    isPeerAllowed (runKnocks [8081, 8082, 8083] 0 300 ⟨[], []⟩ (some 1)
      ([8082, 8081, 8083].take 3)).allowedPeers (some 1) = false :=
  c2_wrong_order_never_grants [8081, 8082, 8083] 0 300 ⟨[], []⟩ (some 1)
    [8082, 8081, 8083] rfl rfl (by decide) 3

/-- **C3** counterexample: an entry whose expiry timestamp (5) lies strictly
before the check time (10) is still reported allowed by `isPeerAllowed`,
which consults no clock at all — refuting lazy expiry enforcement on read. -/
theorem c3_counterexample_expired_entry_reported_allowed :
    (⟨some 1, 0, 5⟩ : AllowedPeer).«end» < 10 ∧
    isPeerAllowed [⟨some 1, 0, 5⟩] (some 1) = true := by
  decide

/-- **C3** (amended). `isPeerAllowed` is pure allowlist membership with no
expiry check: it is true exactly when an entry for the peer exists, expired
or not; only after the sweeper's pass does the answer coincide with
"an unexpired (end at or after now) entry exists". -/
theorem c3_isPeerAllowed_membership_only (al : List AllowedPeer) (p : IP)
    (now : Time) :
    (isPeerAllowed al p = true ↔ ∃ e ∈ al, e.ip = p) ∧
    (isPeerAllowed (prune now al) p = true ↔
      ∃ e ∈ al, e.ip = p ∧ ¬ e.«end» < now) := by
  constructor
  · exact isPeerAllowed_iff al p
  · rw [isPeerAllowed_iff]
    constructor
    · rintro ⟨e, he, hip⟩
      obtain ⟨hmem, hexp⟩ := (mem_prune now al e).mp he
      exact ⟨e, hmem, hip, hexp⟩
    · rintro ⟨e, he, hip, hexp⟩
      exact ⟨e, (mem_prune now al e).mpr ⟨he, hexp⟩, hip⟩

/-- **C5** counterexample: a peer whose only entry is already expired
(end 5 < now 10) has no live entry, yet `allowPeer` is a no-op — no entry
with `start = now` is created — refuting the claim's "no live entry" half. -/
theorem c5_counterexample_expired_entry_blocks_grant :
    (⟨some 1, 0, 5⟩ : AllowedPeer).«end» < 10 ∧
    allowPeer 10 300 [⟨some 1, 0, 5⟩] (some 1) = [⟨some 1, 0, 5⟩] := by
  decide

/-- **C5** (amended). A knock by a peer with an allowlist entry (live or
expired-but-unpruned) returns `alreadyAllowed` and changes nothing, and
`allowPeer` for such a peer is a no-op; `allowPeer` for a peer with no entry
at all appends exactly one entry with `start = now`,
`end = now + accessDuration`. -/
theorem c5_grant_noop_when_present (cfg : List Port) (now : Time) (dur : Nat)
    (st : ServerState) (al : List AllowedPeer) (p : IP) (q : Port) :
    (isPeerAllowed st.allowedPeers p = true →
      knockHandlerCore cfg now dur st p q = (st, .alreadyAllowed)) ∧
    (isPeerAllowed al p = true → allowPeer now dur al p = al) ∧
    (isPeerAllowed al p = false →
      allowPeer now dur al p = al ++ [⟨p, now, now + dur⟩]) := by
  refine ⟨?_, ?_, ?_⟩
  · intro h
    unfold knockHandlerCore
    rw [if_pos h]
  · intro h
    unfold allowPeer
    rw [if_pos h]
  · intro h
    unfold allowPeer
    rw [if_neg (by simp [h])]

/-- Witness for C5. -/
theorem c5_grant_noop_when_present_witness :
    knockHandlerCore [8081, 8082, 8083] 7 300 ⟨[⟨some 1, 0, 5⟩], []⟩ (some 1)
      8081 = (⟨[⟨some 1, 0, 5⟩], []⟩, .alreadyAllowed) ∧
    allowPeer 7 300 [⟨some 1, 0, 5⟩] (some 1) = [⟨some 1, 0, 5⟩] ∧
    allowPeer 7 300 [] (some 2) = [⟨some 2, 7, 307⟩] :=
  ⟨(c5_grant_noop_when_present [8081, 8082, 8083] 7 300 ⟨[⟨some 1, 0, 5⟩], []⟩
      [⟨some 1, 0, 5⟩] (some 1) 8081).1 (by decide),
   (c5_grant_noop_when_present [8081, 8082, 8083] 7 300 ⟨[⟨some 1, 0, 5⟩], []⟩
      [⟨some 1, 0, 5⟩] (some 1) 8081).2.1 (by decide),
   (c5_grant_noop_when_present [8081, 8082, 8083] 7 300 ⟨[⟨some 1, 0, 5⟩], []⟩
      [] (some 2) 8081).2.2 (by decide)⟩

/-- **C6** (code bug). A fresh peer completing the configured sequence
`[8081, 8082]` is granted, but its completed knock session is NOT discarded
from the session table; consequently, once the grant has expired and been
pruned, re-knocking the exact configured sequence appends to the stale
session and can never grant again. -/
theorem c6_completed_session_not_discarded :
    isPeerAllowed (runKnocks [8081, 8082] 0 300 ⟨[], []⟩ (some 1)
      [8081, 8082]).allowedPeers (some 1) = true ∧
    peerHasKnockSession (some 1)
      (runKnocks [8081, 8082] 0 300 ⟨[], []⟩ (some 1)
        [8081, 8082]).knockSessions = some ⟨some 1, [8081, 8082]⟩ ∧
    isPeerAllowed
      (runKnocks [8081, 8082] 400 300
        ⟨prune 400 (runKnocks [8081, 8082] 0 300 ⟨[], []⟩ (some 1)
            [8081, 8082]).allowedPeers,
          (runKnocks [8081, 8082] 0 300 ⟨[], []⟩ (some 1)
            [8081, 8082]).knockSessions⟩
        (some 1) [8081, 8082]).allowedPeers (some 1) = false := by
  decide

/-- **C7** counterexample: an entry whose expiry `end = 5` equals `now = 5`
(so `end ≤ now`) is NOT removed by the sweeper pass, which removes only on
the strict `time.Now().After(end)` — refuting removal at `end = now`. -/
theorem c7_counterexample_boundary_entry_kept :
    (⟨some 1, 0, 5⟩ : AllowedPeer).«end» ≤ 5 ∧
    prune 5 [⟨some 1, 0, 5⟩] = [⟨some 1, 0, 5⟩] := by
  decide

/-- **C7** (amended). The sweeper pass removes exactly the entries whose
expiry lies strictly before `now` (`end < now`), keeps every entry with
`end ≥ now` in order, and has no other effect: it is a filter of the
allowlist. -/
theorem c7_prune_removes_strictly_expired (now : Time)
    (al : List AllowedPeer) :
    prune now al = al.filter (fun e => decide (¬ e.«end» < now)) ∧
    ∀ e, e ∈ prune now al ↔ e ∈ al ∧ ¬ e.«end» < now :=
  ⟨prune_eq_filter now al, fun e => mem_prune now al e⟩

/-- **C8** counterexample: a remote address in valid `host:port` shape whose
host is not a parseable IP (here `"bad"`) does not produce the internal-error
response — `getPeer` returns the nil peer with no error, and the gated port
answers `denied` for it — refuting "never answered with the denied
response". -/
theorem c8_counterexample_unparseable_host_denied :
    getPeer (.addr ['b', 'a', 'd']) = .ok none ∧
    baseHandler ⟨[], []⟩ (.addr ['b', 'a', 'd']) = .denied := by
  exact ⟨rfl, by decide⟩

/-- **C8** (amended). Only a remote address on which `net.SplitHostPort`
fails yields the distinct internal-error response, with no state change, on
both the gated port and the knock ports; an address that splits but whose
host fails IP parsing yields the nil peer identity, which the handlers
process like any ordinary peer. -/
theorem c8_split_failure_internal_error (cfg : List Port) (now : Time)
    (dur : Nat) (st : ServerState) (q : Port) (h : List Char) :
    baseHandler st .badAddr = .peerError ∧
    knockHandler cfg now dur st .badAddr q = (st, .peerError) ∧
    (parseIP h = none →
      baseHandler st (.addr h) = baseHandlerCore st none ∧
      knockHandler cfg now dur st (.addr h) q =
        knockHandlerCore cfg now dur st none q) := by
  refine ⟨rfl, rfl, fun hp => ⟨?_, ?_⟩⟩
  · have hb : baseHandler st (.addr h) = baseHandlerCore st (parseIP h) := rfl
    rw [hb, hp]
  · have hk : knockHandler cfg now dur st (.addr h) q =
        knockHandlerCore cfg now dur st (parseIP h) q := rfl
    rw [hk, hp]

/-- Witness for C8. -/
theorem c8_split_failure_internal_error_witness :
    baseHandler ⟨[], []⟩ .badAddr = .peerError ∧
    knockHandler [8081] 0 300 ⟨[], []⟩ .badAddr 8081 = (⟨[], []⟩, .peerError) ∧
    baseHandler ⟨[], []⟩ (.addr ['b', 'a', 'd']) =
      baseHandlerCore ⟨[], []⟩ none :=
  ⟨(c8_split_failure_internal_error [8081] 0 300 ⟨[], []⟩ 8081
      ['b', 'a', 'd']).1,
   (c8_split_failure_internal_error [8081] 0 300 ⟨[], []⟩ 8081
      ['b', 'a', 'd']).2.1,
   ((c8_split_failure_internal_error [8081] 0 300 ⟨[], []⟩ 8081
      ['b', 'a', 'd']).2.2 (by decide)).1⟩

/-- **C9** counterexample: the duplicate-port sequence `"8081,8081"` is
accepted by the knock-sequence parser (no fatal error), refuting rejection of
duplicate-port configurations at startup. -/
theorem c9_counterexample_duplicates_accepted :
    parseKnockSequence ['8', '0', '8', '1', ',', '8', '0', '8', '1'] =
      some [8081, 8081] := by
  decide

/-- **C9** (amended). Configuration parsing is fatal exactly when some
comma-separated field is not an integer; duplicate (and non-positive) ports
are accepted without any check. -/
theorem c9_parse_fatal_iff_noninteger_field (flagValue : List Char) :
    parseKnockSequence flagValue = none ↔
      ∃ f ∈ splitOnSep ',' flagValue, atoi f = none :=
  parseFields_eq_none_iff (splitOnSep ',' flagValue)

/-- **C10** (confirmed). For a peer with no session and not in the allowlist,
the knock handler's session-creation path seeds the session with the single
knocked port and answers `knockAck` with no completion check; consequently,
when the configured sequence has length 1, no knock history of that peer ever
grants access. -/
theorem c10_seed_session_skips_completion_check (cfg : List Port) (now : Time)
    (dur : Nat) (st : ServerState) (p : IP) (q : Port)
    (hs : peerHasKnockSession p st.knockSessions = none)
    (ha : isPeerAllowed st.allowedPeers p = false) :
    (knockHandlerCore cfg now dur st p q).2 = .knockAck ∧
    (knockHandlerCore cfg now dur st p q).1.knockSessions =
      st.knockSessions ++ [⟨p, [q]⟩] ∧
    (cfg.length = 1 → ∀ l : List Port, ∀ k,
      isPeerAllowed (runKnocks cfg now dur st p (l.take k)).allowedPeers p
        = false) := by
  have hred : knockHandlerCore cfg now dur st p q =
      ({ st with knockSessions := st.knockSessions ++ [⟨p, [q]⟩] },
        .knockAck) := by
    unfold knockHandlerCore
    rw [if_neg (by simp [ha]), hs]
  refine ⟨by rw [hred], by rw [hred], ?_⟩
  intro hlen l k
  apply bool_eq_false
  intro htrue
  obtain ⟨h2, _, _⟩ :=
    (fresh_run_allowed_iff cfg now dur st p _ hs ha).mp htrue
  omega

/-- Witness for C10 with the length-1 sequence `[8081]`. -/
theorem c10_seed_session_skips_completion_check_witness :
    (knockHandlerCore [8081] 0 300 ⟨[], []⟩ (some 1) 8081).2 = .knockAck ∧
    isPeerAllowed (runKnocks [8081] 0 300 ⟨[], []⟩ (some 1)
      ([8081, 8081].take 2)).allowedPeers (some 1) = false :=
  ⟨(c10_seed_session_skips_completion_check [8081] 0 300 ⟨[], []⟩ (some 1)
      8081 rfl rfl).1,
   (c10_seed_session_skips_completion_check [8081] 0 300 ⟨[], []⟩ (some 1)
      8081 rfl rfl).2.2 rfl [8081, 8081] 2⟩

end PortKnocker
